import Mathlib

/-!
Verification development for the session runtime of the `superposition`
server (Go sources: `internal/pty` — `Session`, `Manager` — and `main.go` —
`cleanupStaleSessions`, the SIGTERM shutdown goroutine).

Bytes are modelled as `Nat`, byte strings as `List Nat`, and per-subscriber
Go channels as bounded queues (`Chan`).  The reader and waiter goroutines of
`Manager.Start` are modelled as a small-step machine over `SessState` whose
operations (`Op`) are the atomic critical sections of the Go code; each step
also emits the observable events (`Event`) of that critical section.
-/

namespace Superposition

/-- `replayBufSize` from internal/pty: `100 * 1024` (100 KiB replay cap). -/
def replayBufSize : Nat := 100 * 1024

/-- Go `Session.Subscribe` channel capacity: `make(chan []byte, 256)`. -/
def subQueueCap : Nat := 256

/-- The last `n` bytes of `l` (all of `l` when `l.length ≤ n`). -/
def lastN (n : Nat) (l : List Nat) : List Nat := l.drop (l.length - n)

namespace Session

/-- `Session.appendReplay`: append `data` to the ring, then when the length
exceeds `replayBufSize` keep only the trailing `replayBufSize` bytes
(`s.replayBuf = s.replayBuf[len(s.replayBuf)-replayBufSize:]`). -/
def appendReplay (buf data : List Nat) : List Nat :=
  if (buf ++ data).length > replayBufSize then
    (buf ++ data).drop ((buf ++ data).length - replayBufSize)
  else buf ++ data

/-- `Session.Replay`: returns a snapshot copy of the ring (`copy(cp, s.replayBuf)`);
in the embedding a copy of an immutable list is the list itself. -/
def Replay (buf : List Nat) : List Nat := buf

end Session

/-- The ring contents after the reader has appended the given chunks, in
order, starting from the empty ring a fresh `Session` has. -/
def replayOf (chunks : List (List Nat)) : List Nat :=
  chunks.foldl Session.appendReplay []

theorem appendReplay_eq_lastN (buf data : List Nat) :
    Session.appendReplay buf data = lastN replayBufSize (buf ++ data) := by
  unfold Session.appendReplay lastN
  split
  · rfl
  · next h =>
      have hz : (buf ++ data).length - replayBufSize = 0 :=
        Nat.sub_eq_zero_of_le (Nat.le_of_not_lt h)
      rw [hz, List.drop_zero]

theorem lastN_append (c : Nat) (B d : List Nat) :
    lastN c (lastN c B ++ d) = lastN c (B ++ d) := by
  unfold lastN
  have hle : B.length - c ≤ B.length := Nat.sub_le _ _
  have h1 : (B.drop (B.length - c)) ++ d = (B ++ d).drop (B.length - c) := by
    rw [List.drop_append_eq_append_drop]
    have : B.length - c - B.length = 0 := by omega
    rw [this, List.drop_zero]
  rw [h1, List.drop_drop, List.length_drop, List.length_append]
  congr 1
  omega

theorem foldl_appendReplay_lastN (chunks : List (List Nat)) :
    ∀ B : List Nat,
      chunks.foldl Session.appendReplay (lastN replayBufSize B) =
        lastN replayBufSize (B ++ chunks.flatten) := by
  induction chunks with
  | nil =>
      intro B
      rw [List.foldl_nil, List.flatten_nil, List.append_nil]
  | cons d rest ih =>
      intro B
      rw [List.foldl_cons, List.flatten_cons, appendReplay_eq_lastN, lastN_append,
        ih (B ++ d), List.append_assoc]

theorem replayOf_eq (chunks : List (List Nat)) :
    replayOf chunks = lastN replayBufSize chunks.flatten := by
  have h := foldl_appendReplay_lastN chunks []
  rw [replayOf]
  have h0 : lastN replayBufSize [] = [] := rfl
  rw [h0] at h
  rw [h, List.nil_append]

theorem lastN_length (c : Nat) (l : List Nat) :
    (lastN c l).length = min l.length c := by
  unfold lastN
  rw [List.length_drop]
  omega

/-- C3: after any sequence of reader appends with cumulative bytes
`B = chunks.flatten`, `Replay` returns exactly the last `min (|B|, 100 KiB)`
bytes of `B` (a suffix of `B`), and after every append the ring length is at
most the 100 KiB cap. -/
theorem replay_is_bounded_suffix (chunks : List (List Nat)) :
    Session.Replay (replayOf chunks) =
        (chunks.flatten).drop ((chunks.flatten).length - replayBufSize) ∧
    (Session.Replay (replayOf chunks)).length =
        min (chunks.flatten).length replayBufSize ∧
    Session.Replay (replayOf chunks) <:+ chunks.flatten ∧
    ∀ i : Nat,
      ((chunks.take i).foldl Session.appendReplay []).length ≤ replayBufSize := by
  refine ⟨?_, ?_, ?_, ?_⟩
  · rw [Session.Replay, replayOf_eq]; rfl
  · rw [Session.Replay, replayOf_eq, lastN_length]
  · rw [Session.Replay, replayOf_eq]; exact List.drop_suffix _ _
  · intro i
    have h : (chunks.take i).foldl Session.appendReplay [] = replayOf (chunks.take i) := rfl
    rw [h, replayOf_eq, lastN_length]
    omega

/-! ## The per-session broadcast machine

`Chan` models one subscriber channel: `queue` is the buffered content of the
Go channel (capacity `subQueueCap`), `received` the payloads the subscriber
has already read from it, `closed` whether `close(ch)` ran, and `inMap`
whether the channel is currently a key of `s.subscribers`. -/

structure Chan where
  queue : List (List Nat)
  received : List (List Nat)
  closed : Bool
  inMap : Bool
deriving DecidableEq

/-- A fresh channel as created by `Session.Subscribe`:
`make(chan []byte, 256)` registered in the subscriber map. -/
def freshChan : Chan := ⟨[], [], false, true⟩

/-- One `select { case ch <- data: default: }` attempt of `Session.broadcast`
for a channel that is in the map: enqueue when the buffer has space,
otherwise drop the payload for this subscriber. -/
def offer (c : Chan) (d : List Nat) : Chan :=
  if c.inMap then
    if c.queue.length < subQueueCap then { c with queue := c.queue ++ [d] } else c
  else c

/-- `Session.broadcast`: offer `d` to every channel in the subscriber map. -/
def Session.broadcast (subs : List Chan) (d : List Nat) : List Chan :=
  subs.map (fun c => offer c d)

/-- State of one session's runtime: the replay ring, the subscriber channels
(indexed by position; a position is a channel identity and is never removed,
deletion from the Go map is the `inMap` flag), whether the reader goroutine
has exited its loop (`readerDone`), whether `cmd.Wait` has returned
(`reaped`, at which point `stopped` is set and `Done` is closed). -/
structure SessState where
  ring : List Nat
  subs : List Chan
  readerDone : Bool
  reaped : Bool
  stopped : Bool
deriving DecidableEq

/-- The state right after `Manager.Start` returned: empty ring, no
subscribers, reader and waiter goroutines running. -/
def initSess : SessState := ⟨[], [], false, false, false⟩

/-- Atomic steps of the session runtime, one per critical section of the Go
code: `chunk d` is one iteration of the reader loop delivering `d` bytes;
`subscribe` is `Session.Subscribe`; `unsubscribe i` its cancel function
(`delete(s.subscribers, ch)`); `consume i` is subscriber `i` receiving one
payload from its channel; `eof` is the reader loop breaking on read error/EOF
and running its teardown; `reap` is `cmd.Wait` returning in the waiter. -/
inductive Op where
  | chunk (d : List Nat)
  | subscribe
  | unsubscribe (i : Nat)
  | consume (i : Nat)
  | eof
  | reap
deriving DecidableEq

/-- Observable events: `append d` is `appendReplay(d)`, `deliver i d` a
successful channel send to subscriber `i`, `dropPayload i d` the `default:`
branch for a full queue, `closeChan i` is `close(ch)` in the reader teardown,
`doneFired` is `close(sess.Done)` in the waiter. -/
inductive Event where
  | append (d : List Nat)
  | deliver (i : Nat) (d : List Nat)
  | dropPayload (i : Nat) (d : List Nat)
  | closeChan (i : Nat)
  | doneFired
deriving DecidableEq

/-- Events of one broadcast pass over the subscriber list, channel indices
starting at `k`. -/
def broadcastEvents (k : Nat) (subs : List Chan) (d : List Nat) : List Event :=
  match subs with
  | [] => []
  | c :: cs =>
      (if c.inMap then
        (if c.queue.length < subQueueCap then [Event.deliver k d] else [Event.dropPayload k d])
      else []) ++ broadcastEvents (k + 1) cs d

/-- Events of the reader teardown's close loop, channel indices from `k`. -/
def closeEvents (k : Nat) (subs : List Chan) : List Event :=
  match subs with
  | [] => []
  | c :: cs => (if c.inMap then [Event.closeChan k] else []) ++ closeEvents (k + 1) cs

/-- Replace channel `i` (no-op when out of range). -/
def modifyChan (subs : List Chan) (i : Nat) (f : Chan → Chan) : List Chan :=
  match subs, i with
  | [], _ => []
  | c :: cs, 0 => f c :: cs
  | c :: cs, n + 1 => c :: modifyChan cs n f

/-- One atomic step, returning the next state and the events it emits.
A `chunk` after the reader has exited is a no-op (there is no code left to
run it); likewise a second `eof` or `reap` (each loop/wait runs once). -/
def step (st : SessState) (op : Op) : SessState × List Event :=
  match op with
  | .chunk d =>
      if st.readerDone then (st, [])
      else
        ({ st with ring := Session.appendReplay st.ring d,
                   subs := Session.broadcast st.subs d },
         Event.append d :: broadcastEvents 0 st.subs d)
  | .subscribe => ({ st with subs := st.subs ++ [freshChan] }, [])
  | .unsubscribe i =>
      ({ st with subs := modifyChan st.subs i (fun c => { c with inMap := false }) }, [])
  | .consume i =>
      ({ st with subs := modifyChan st.subs i (fun c =>
          match c.queue with
          | [] => c
          | p :: rest => { c with queue := rest, received := c.received ++ [p] }) }, [])
  | .eof =>
      if st.readerDone then (st, [])
      else
        ({ st with readerDone := true,
                   subs := st.subs.map (fun c =>
                     if c.inMap then { c with closed := true, inMap := false } else c) },
         closeEvents 0 st.subs)
  | .reap =>
      if st.reaped then (st, [])
      else ({ st with reaped := true, stopped := true }, [Event.doneFired])

/-- Run a sequence of steps. -/
def run (st : SessState) (ops : List Op) : SessState :=
  ops.foldl (fun s op => (step s op).1) st

/-- The concatenated event trace of a run. -/
def trace (st : SessState) (ops : List Op) : List Event :=
  match ops with
  | [] => []
  | op :: rest => (step st op).2 ++ trace (step st op).1 rest

/-- The bytes the reader actually emitted during a run (chunks processed
while the reader loop was still running), i.e. the session's byte stream B. -/
def emitted (st : SessState) (ops : List Op) : List Nat :=
  match ops with
  | [] => []
  | op :: rest =>
      (match op with
       | .chunk d => if st.readerDone then [] else d
       | _ => []) ++ emitted (step st op).1 rest

/-! ## The manager -/

/-- A manager-level view of one session: the child's PID, whether
`sess.Cmd.Process` is non-nil, the `stopped` flag, and whether the PTY
primary is still open. -/
structure Sess where
  pid : Nat
  hasProcess : Bool
  stopped : Bool
  ptyOpen : Bool
deriving DecidableEq

/-- `Manager.sessions`: a `map[string]*Session`, modelled as an association
list with at most one entry per key (insertion overwrites). -/
abbrev Mgr := List (String × Sess)

/-- Side effects of the stop path. -/
inductive Sig where
  | sigterm (pid : Nat)
  | ptyClose
deriving DecidableEq

def mgrGet (m : Mgr) (id : String) : Option Sess := m.lookup id

def mgrRemove (m : Mgr) (id : String) : Mgr := m.filter (fun p => p.1 != id)

def mgrInsert (m : Mgr) (id : String) (s : Sess) : Mgr := (id, s) :: mgrRemove m id

namespace Manager

/-- `Manager.Start`: launches `cliType` on a fresh PTY and registers the
session under `id` — with no check whether `id` is already live; a map
assignment overwrites.  `spawn` models the result of `pty.StartWithSize`
(`none` = spawn failure, `some pid` = running child). -/
def Start (m : Mgr) (id : String) (spawn : Option Nat) : Except String (Mgr × Sess) :=
  match spawn with
  | none => .error "start pty"
  | some pid =>
      let s : Sess := ⟨pid, true, false, true⟩
      .ok (mgrInsert m id s, s)

/-- `Manager.Get`. -/
def Get (m : Mgr) (id : String) : Option Sess := mgrGet m id

/-- `Manager.Stop`: error when `id` is unknown; otherwise remove the entry,
then — unless the session is already `stopped` — send SIGTERM to the child
(when `Cmd.Process` is non-nil) and close the PTY.  No SIGKILL, no wait. -/
def Stop (m : Mgr) (id : String) : Except String (Mgr × List Sig) :=
  match mgrGet m id with
  | none => .error ("session not found: " ++ id)
  | some sess =>
      let m' := mgrRemove m id
      if sess.stopped then .ok (m', [])
      else .ok (m', (if sess.hasProcess then [Sig.sigterm sess.pid] else []) ++ [Sig.ptyClose])

/-- One iteration of `Manager.StopAll`'s loop body. -/
def stopStep (acc : Mgr × List Sig) (id : String) : Mgr × List Sig :=
  match Stop acc.1 id with
  | .ok (m', sigs) => (m', acc.2 ++ sigs)
  | .error _ => acc

/-- `Manager.StopAll`: snapshot the ids, then `Stop` each one. -/
def StopAll (m : Mgr) : Mgr × List Sig :=
  (m.map (·.1)).foldl stopStep (m, [])

/-- `Manager.ListActive`. -/
def ListActive (m : Mgr) : List String := m.map (·.1)

end Manager

/-- The `main.go` shutdown goroutine body on SIGTERM/SIGINT, restricted to
its effect on sessions: `srv.PtyMgr.StopAll()` (worktree cleanup and the
HTTP shutdown touch no session state). -/
def onSigterm (m : Mgr) : Mgr × List Sig := Manager.StopAll m

/-! ## Startup cleanup (main.go `cleanupStaleSessions`) -/

inductive Status where
  | starting
  | running
  | stopped
  | errored
deriving DecidableEq

/-- A durable session row, restricted to the columns the startup cleanup
reads or writes (the `sessions` table has no reason column). -/
structure Row where
  id : String
  status : Status
deriving DecidableEq

/-- `cleanupStaleSessions`:
`UPDATE sessions SET status = 'stopped' WHERE status IN ('running', 'starting')` —
unconditional, consulting no in-memory registry. -/
def cleanupStaleSessions (rows : List Row) : List Row :=
  rows.map (fun r =>
    if r.status = Status.running ∨ r.status = Status.starting then
      { r with status := Status.stopped }
    else r)

/-! ## Registry lemmas -/

instance {ε α : Type} [DecidableEq ε] [DecidableEq α] : DecidableEq (Except ε α) :=
  fun x y =>
    match x, y with
    | .ok a, .ok b =>
        if h : a = b then .isTrue (by rw [h])
        else .isFalse (by intro hc; cases hc; exact h rfl)
    | .error e, .error f =>
        if h : e = f then .isTrue (by rw [h])
        else .isFalse (by intro hc; cases hc; exact h rfl)
    | .ok _, .error _ => .isFalse (by intro hc; cases hc)
    | .error _, .ok _ => .isFalse (by intro hc; cases hc)

theorem lookup_mgrRemove_self (m : Mgr) (id : String) :
    mgrGet (mgrRemove m id) id = none := by
  induction m with
  | nil => rfl
  | cons kv t ih =>
      by_cases h : kv.1 = id
      · simpa [mgrRemove, mgrGet, List.filter, h] using ih
      · simp only [mgrRemove, mgrGet, List.filter] at ih ⊢
        rw [show (kv.1 != id) = true by simp [h]]
        simpa [List.lookup, show (id == kv.1) = false by simp [Ne.symm h]] using ih

theorem lookup_mgrRemove_ne (m : Mgr) (id id₂ : String) (h : id₂ ≠ id) :
    mgrGet (mgrRemove m id) id₂ = mgrGet m id₂ := by
  induction m with
  | nil => rfl
  | cons kv t ih =>
      by_cases hk : kv.1 = id
      · have h2 : (id₂ == kv.1) = false := by simp [hk, h]
        simp only [mgrRemove, mgrGet, List.filter] at ih ⊢
        rw [show (kv.1 != id) = false by simp [hk]]
        simpa [List.lookup, h2] using ih
      · simp only [mgrRemove, mgrGet, List.filter] at ih ⊢
        rw [show (kv.1 != id) = true by simp [hk]]
        by_cases h2 : id₂ = kv.1
        · simp [List.lookup, h2]
        · simpa [List.lookup, show (id₂ == kv.1) = false by simp [h2]] using ih

theorem lookup_mgrInsert_self (m : Mgr) (id : String) (s : Sess) :
    mgrGet (mgrInsert m id s) id = some s := by
  simp [mgrInsert, mgrGet, List.lookup]

theorem lookup_mgrInsert_ne (m : Mgr) (id : String) (s : Sess) (id₂ : String)
    (h : id₂ ≠ id) :
    mgrGet (mgrInsert m id s) id₂ = mgrGet m id₂ := by
  simp only [mgrInsert, mgrGet, List.lookup, show (id₂ == id) = false by simp [h]]
  exact lookup_mgrRemove_ne m id id₂ h

/-- The signals `Manager.Stop` emits for a found session. -/
def stopSigs (s : Sess) : List Sig :=
  if s.stopped then [] else (if s.hasProcess then [Sig.sigterm s.pid] else []) ++ [Sig.ptyClose]

theorem stop_of_get (m : Mgr) (id : String) (s : Sess) (h : mgrGet m id = some s) :
    Manager.Stop m id = .ok (mgrRemove m id, stopSigs s) := by
  unfold Manager.Stop
  rw [h]
  by_cases hs : s.stopped <;> simp [stopSigs, hs]

theorem stop_of_get_none (m : Mgr) (id : String) (h : mgrGet m id = none) :
    Manager.Stop m id = .error ("session not found: " ++ id) := by
  unfold Manager.Stop
  rw [h]

/-- All signals `StopAll` emits, session by session in registry order. -/
def allStopSigs : Mgr → List Sig
  | [] => []
  | p :: t => stopSigs p.2 ++ allStopSigs t

theorem stopStep_acc (m0 : Mgr) (s0 : List Sig) (id : String) :
    Manager.stopStep (m0, s0) id =
      ((Manager.stopStep (m0, []) id).1, s0 ++ (Manager.stopStep (m0, []) id).2) := by
  unfold Manager.stopStep
  cases h : Manager.Stop m0 id with
  | ok pr => simp
  | error e => simp

theorem stopAll_acc (ids : List String) :
    ∀ (m0 : Mgr) (s0 : List Sig),
      ids.foldl Manager.stopStep (m0, s0) =
        ((ids.foldl Manager.stopStep (m0, [])).1,
          s0 ++ (ids.foldl Manager.stopStep (m0, [])).2) := by
  induction ids with
  | nil => intro m0 s0; simp
  | cons id rest ih =>
      intro m0 s0
      rw [List.foldl_cons, List.foldl_cons, stopStep_acc m0 s0 id]
      rcases hh : Manager.stopStep (m0, []) id with ⟨M1, S1⟩
      rw [ih M1 (s0 ++ S1), ih M1 S1]
      simp

theorem mgrRemove_eq_self (t : Mgr) (k : String) (h : ∀ p ∈ t, p.1 ≠ k) :
    mgrRemove t k = t := by
  unfold mgrRemove
  exact List.filter_eq_self.mpr (fun p hp => by simp [h p hp])

theorem stopAll_eq (m : Mgr) (hnd : (m.map (·.1)).Nodup) :
    Manager.StopAll m = ([], allStopSigs m) := by
  induction m with
  | nil => rfl
  | cons kv t ih =>
      rcases kv with ⟨k, s⟩
      rw [List.map_cons, List.nodup_cons] at hnd
      obtain ⟨hk, hnd'⟩ := hnd
      have hmem : ∀ p ∈ t, p.1 ≠ k := by
        intro p hp he
        exact hk (he ▸ List.mem_map_of_mem (·.1) hp)
      have hget : mgrGet ((k, s) :: t) k = some s := by
        simp [mgrGet, List.lookup]
      have hrm : mgrRemove ((k, s) :: t) k = t := by
        unfold mgrRemove
        rw [List.filter_cons]
        rw [show ((k, s).1 != k) = false by simp]
        exact mgrRemove_eq_self t k hmem
      have hstep : Manager.stopStep (((k, s) :: t), []) k = (t, stopSigs s) := by
        unfold Manager.stopStep
        rw [stop_of_get _ _ _ hget, hrm]
        simp
      unfold Manager.StopAll
      rw [List.map_cons, List.foldl_cons, hstep, stopAll_acc (t.map (·.1)) t (stopSigs s)]
      have hIH : (t.map (·.1)).foldl Manager.stopStep (t, []) = ([], allStopSigs t) := by
        have := ih hnd'
        unfold Manager.StopAll at this
        exact this
      rw [hIH]
      simp [allStopSigs]

theorem allStopSigs_mem (m : Mgr) (p : String × Sess) (hp : p ∈ m)
    (x : Sig) (hx : x ∈ stopSigs p.2) : x ∈ allStopSigs m := by
  induction m with
  | nil => cases hp
  | cons q t ih =>
      rcases List.mem_cons.mp hp with h | h
      · subst h
        exact List.mem_append_left _ hx
      · exact List.mem_append_right _ (ih h)

/-! ## C1: the server's SIGTERM path and sessions -/

def sessC1 : Sess := ⟨42, true, false, true⟩

def mgrC1 : Mgr := [("s1", sessC1)]

/-- C1 counterexample: with one live session `"s1"` (PID 42), the SIGTERM
shutdown path sends the child SIGTERM and empties the registry — the claim
that no session is signalled and the registry is left unchanged (s1 still
listed with the same PID) is false on the code. -/
theorem sigterm_kills_sessions_cex :
    mgrGet mgrC1 "s1" = some sessC1 ∧
    (onSigterm mgrC1).1 = [] ∧
    Manager.Get (onSigterm mgrC1).1 "s1" = none ∧
    (onSigterm mgrC1).2 = [Sig.sigterm 42, Sig.ptyClose] := by
  decide

/-- C1 amended: on SIGTERM the shutdown goroutine runs `StopAll`, which stops
every session: the registry is emptied (no session survives into a restart)
and every live, not-yet-stopped session's child receives SIGTERM. -/
theorem sigterm_stops_every_session (m : Mgr) (hnd : (m.map (·.1)).Nodup) :
    (onSigterm m).1 = [] ∧
    (∀ id, Manager.Get (onSigterm m).1 id = none) ∧
    (∀ id s, (id, s) ∈ m → s.stopped = false → s.hasProcess = true →
      Sig.sigterm s.pid ∈ (onSigterm m).2) := by
  have h : onSigterm m = ([], allStopSigs m) := stopAll_eq m hnd
  refine ⟨by rw [h], by intro id; rw [h]; rfl, ?_⟩
  intro id s hm hs hp
  rw [h]
  refine allStopSigs_mem m (id, s) hm _ ?_
  simp [stopSigs, hs, hp]

/-- Witness for `sigterm_stops_every_session` at a concrete registry. -/
theorem sigterm_stops_every_session_witness :
    (([("s1", sessC1)] : Mgr).map (·.1)).Nodup ∧
    (onSigterm [("s1", sessC1)]).1 = [] ∧
    Sig.sigterm 42 ∈ (onSigterm [("s1", sessC1)]).2 := by
  have h := sigterm_stops_every_session [("s1", sessC1)] (by decide)
  exact ⟨by decide, h.1, h.2.2 "s1" sessC1 (by decide) (by decide) (by decide)⟩

/-! ## C2: startup cleanup vs. reconciliation -/

def rowC2 : Row := ⟨"s1", Status.running⟩

/-- C2 counterexample: even when `"s1"` is live in the in-memory registry,
the startup cleanup marks its durable row `stopped` (and records no reason) —
there is no re-adoption branch. -/
theorem cleanup_ignores_registry_cex :
    mgrGet mgrC1 "s1" = some sessC1 ∧
    cleanupStaleSessions [rowC2] = [⟨"s1", Status.stopped⟩] := by
  decide

/-- C2 amended: `cleanupStaleSessions` marks every durable row whose status
is `running` or `starting` as `stopped`, unconditionally (it consults no
registry and records no reason); rows in other states and all row ids are
untouched, and afterwards no row is left `running` or `starting`. -/
theorem cleanup_stops_all_active_rows (rows : List Row) :
    (cleanupStaleSessions rows).length = rows.length ∧
    (∀ (i : Nat) (r : Row), rows[i]? = some r →
      (cleanupStaleSessions rows)[i]? =
        some (if r.status = Status.running ∨ r.status = Status.starting
              then { r with status := Status.stopped } else r)) ∧
    (∀ r ∈ cleanupStaleSessions rows,
      r.status ≠ Status.running ∧ r.status ≠ Status.starting) ∧
    ((cleanupStaleSessions rows).map (·.id) = rows.map (·.id)) := by
  refine ⟨by simp [cleanupStaleSessions], ?_, ?_, ?_⟩
  · intro i r hr
    simp only [cleanupStaleSessions]
    rw [List.getElem?_map _ rows i, hr]
    rfl
  · intro r hr
    rcases List.mem_map.mp hr with ⟨r₀, _, hmap⟩
    subst hmap
    by_cases h : r₀.status = Status.running ∨ r₀.status = Status.starting
    · simp [h]
    · push_neg at h
      simp [h.1, h.2, h]
  · simp only [cleanupStaleSessions]
    rw [List.map_map]
    congr 1
    funext r
    by_cases h : r.status = Status.running ∨ r.status = Status.starting <;> simp [h]

/-- Witness for `cleanup_stops_all_active_rows` at a concrete row list. -/
theorem cleanup_stops_all_active_rows_witness :
    ([rowC2, ⟨"s2", Status.errored⟩] : List Row)[0]? = some rowC2 ∧
    (cleanupStaleSessions [rowC2, ⟨"s2", Status.errored⟩])[0]? =
      some ⟨"s1", Status.stopped⟩ := by
  have h := (cleanup_stops_all_active_rows [rowC2, ⟨"s2", Status.errored⟩]).2.1
    0 rowC2 (by decide)
  exact ⟨by decide, by rw [h]; rfl⟩

/-! ## C6: Stop idempotence -/

/-- C6 counterexample: the first `Stop` of live session `"s1"` returns ok,
removes it, and sends a single SIGTERM (there is no SIGKILL escalation in the
code); the second sequential `Stop` of the same id does not return ok — it
fails with a not-found error, so `Stop` is not idempotent as claimed. -/
theorem stop_second_call_fails_cex :
    Manager.Stop mgrC1 "s1" = .ok ([], [Sig.sigterm 42, Sig.ptyClose]) ∧
    Manager.Stop ([] : Mgr) "s1" = .error "session not found: s1" := by
  decide

/-- C6 amended: `Stop` on a live id returns ok, removes the session and — for
a running child — emits exactly the signal sequence SIGTERM then PTY close
(no SIGKILL escalation); any subsequent `Stop` of the same id returns a
`session not found` error because the first call removed the registry entry. -/
theorem stop_once_then_not_found (m : Mgr) (id : String) (s : Sess)
    (h : mgrGet m id = some s) :
    Manager.Stop m id = .ok (mgrRemove m id, stopSigs s) ∧
    (s.stopped = false → s.hasProcess = true →
      stopSigs s = [Sig.sigterm s.pid, Sig.ptyClose]) ∧
    Manager.Stop (mgrRemove m id) id = .error ("session not found: " ++ id) := by
  refine ⟨stop_of_get m id s h, ?_, ?_⟩
  · intro hs hp
    simp [stopSigs, hs, hp]
  · exact stop_of_get_none _ _ (lookup_mgrRemove_self m id)

/-- Witness for `stop_once_then_not_found` at a concrete registry. -/
theorem stop_once_then_not_found_witness :
    mgrGet mgrC1 "s1" = some sessC1 ∧
    Manager.Stop mgrC1 "s1" = .ok (mgrRemove mgrC1 "s1", stopSigs sessC1) ∧
    Manager.Stop (mgrRemove mgrC1 "s1") "s1" = .error "session not found: s1" := by
  have h := stop_once_then_not_found mgrC1 "s1" sessC1 (by decide)
  exact ⟨by decide, h.1, h.2.2⟩

/-! ## C7: Start on a live id -/

def sessC7 : Sess := ⟨41, true, false, true⟩

def mgrC7 : Mgr := [("s1", sessC7)]

/-- C7 counterexample: `"s1"` is live (PID 41), yet `Start` with the same id
succeeds (no id-in-use error) and replaces the registry entry with the new
session (PID 99) — uniqueness of live ids is not enforced. -/
theorem start_reuses_live_id_cex :
    mgrGet mgrC7 "s1" = some sessC7 ∧
    Manager.Start mgrC7 "s1" (some 99) =
      .ok ([("s1", ⟨99, true, false, true⟩)], ⟨99, true, false, true⟩) := by
  decide

/-- C7 amended: `Manager.Start` performs no liveness check on the id: with a
successful spawn it always succeeds, maps the id to the new session
(overwriting any live entry), and leaves every other id untouched; it fails
only when the PTY spawn fails. -/
theorem start_overwrites_live_id (m : Mgr) (id : String) (pid : Nat) :
    Manager.Start m id (some pid) =
      .ok (mgrInsert m id ⟨pid, true, false, true⟩, ⟨pid, true, false, true⟩) ∧
    mgrGet (mgrInsert m id ⟨pid, true, false, true⟩) id = some ⟨pid, true, false, true⟩ ∧
    (∀ id₂ : String, id₂ ≠ id →
      mgrGet (mgrInsert m id ⟨pid, true, false, true⟩) id₂ = mgrGet m id₂) ∧
    Manager.Start m id none = .error "start pty" := by
  exact ⟨rfl, lookup_mgrInsert_self m id _,
    fun id₂ h2 => lookup_mgrInsert_ne m id _ id₂ h2, rfl⟩

/-- Witness for `start_overwrites_live_id` at a concrete registry. -/
theorem start_overwrites_live_id_witness :
    Manager.Start mgrC7 "s1" (some 99) =
      .ok (mgrInsert mgrC7 "s1" ⟨99, true, false, true⟩, ⟨99, true, false, true⟩) ∧
    mgrGet (mgrInsert mgrC7 "s1" ⟨99, true, false, true⟩) "other" = mgrGet mgrC7 "other" := by
  have h := start_overwrites_live_id mgrC7 "s1" 99
  exact ⟨h.1, h.2.2.1 "other" (by decide)⟩

/-! ## C10: Stop frees the identifier -/

theorem not_in_listActive_remove (m : Mgr) (id : String) :
    id ∉ Manager.ListActive (mgrRemove m id) := by
  unfold Manager.ListActive mgrRemove
  intro hmem
  rcases List.mem_map.mp hmem with ⟨p, hp, hid⟩
  have hpf := (List.mem_filter.mp hp).2
  rw [hid] at hpf
  simp at hpf

/-- C10: after a successful `Stop id`, the registry no longer contains `id`:
`Get` returns nothing, `ListActive` omits it, and a new `Start` with the same
id succeeds immediately (the child is merely signalled, never waited on, so
this holds even while it is still dying). -/
theorem stop_frees_id (m : Mgr) (id : String) (s : Sess)
    (h : mgrGet m id = some s) :
    Manager.Stop m id = .ok (mgrRemove m id, stopSigs s) ∧
    Manager.Get (mgrRemove m id) id = none ∧
    id ∉ Manager.ListActive (mgrRemove m id) ∧
    (∀ pid : Nat,
      Manager.Start (mgrRemove m id) id (some pid) =
        .ok (mgrInsert (mgrRemove m id) id ⟨pid, true, false, true⟩,
             ⟨pid, true, false, true⟩) ∧
      Manager.Get (mgrInsert (mgrRemove m id) id ⟨pid, true, false, true⟩) id =
        some ⟨pid, true, false, true⟩) := by
  refine ⟨stop_of_get m id s h, lookup_mgrRemove_self m id,
    not_in_listActive_remove m id, fun pid => ⟨rfl, lookup_mgrInsert_self _ id _⟩⟩

/-- Witness for `stop_frees_id` at a concrete registry. -/
theorem stop_frees_id_witness :
    mgrGet mgrC1 "s1" = some sessC1 ∧
    Manager.Get (mgrRemove mgrC1 "s1") "s1" = none ∧
    "s1" ∉ Manager.ListActive (mgrRemove mgrC1 "s1") := by
  have h := stop_frees_id mgrC1 "s1" sessC1 (by decide)
  exact ⟨by decide, h.2.1, h.2.2.1⟩

/-! ## C5: non-blocking broadcast with per-subscriber drops -/

/-- C5: one `broadcast` pass is a total function of the subscriber list that
treats every subscriber independently: a subscriber with queue space receives
the payload, a subscriber with a full 256-payload queue has exactly this
payload dropped (its state is unchanged), every other subscriber's outcome is
`offer` of its own state only, and the pass always completes over the whole
list (never blocks on a slow subscriber). -/
theorem broadcast_per_subscriber (subs : List Chan) (d : List Nat)
    (i : Nat) (c : Chan) (h : subs[i]? = some c) (hm : c.inMap = true) :
    (Session.broadcast subs d).length = subs.length ∧
    (c.queue.length < subQueueCap →
      (Session.broadcast subs d)[i]? = some { c with queue := c.queue ++ [d] }) ∧
    (¬ c.queue.length < subQueueCap → (Session.broadcast subs d)[i]? = some c) ∧
    (∀ (j : Nat) (c₂ : Chan), j ≠ i → subs[j]? = some c₂ →
      (Session.broadcast subs d)[j]? = some (offer c₂ d)) := by
  refine ⟨by simp [Session.broadcast], ?_, ?_, ?_⟩
  · intro hlt
    simp only [Session.broadcast]
    rw [List.getElem?_map _ subs i, h]
    simp [offer, hm, hlt]
  · intro hge
    simp only [Session.broadcast]
    rw [List.getElem?_map _ subs i, h]
    simp [offer, hm, hge]
  · intro j c₂ _ hj
    simp only [Session.broadcast]
    rw [List.getElem?_map _ subs j, hj]
    rfl

def fullChanW : Chan := ⟨List.replicate subQueueCap [], [], false, true⟩

set_option maxRecDepth 4000 in
/-- Witness for `broadcast_per_subscriber`: one empty and one full
subscriber; the empty one receives the payload, the full one is unchanged. -/
theorem broadcast_per_subscriber_witness :
    (Session.broadcast [freshChan, fullChanW] [1])[0]? =
      some { freshChan with queue := [[1]] } ∧
    (Session.broadcast [freshChan, fullChanW] [1])[1]? = some fullChanW := by
  have h0 := broadcast_per_subscriber [freshChan, fullChanW] [1] 0 freshChan
    (by decide) (by decide)
  have h1 := broadcast_per_subscriber [freshChan, fullChanW] [1] 1 fullChanW
    (by decide) (by decide)
  exact ⟨h0.2.1 (by decide), h1.2.2.1 (by decide)⟩

/-! ## Machine lemmas -/

theorem run_cons (st : SessState) (op : Op) (ops : List Op) :
    run st (op :: ops) = run (step st op).1 ops := rfl

theorem trace_cons (st : SessState) (op : Op) (ops : List Op) :
    trace st (op :: ops) = (step st op).2 ++ trace (step st op).1 ops := rfl

theorem emitted_cons (st : SessState) (op : Op) (ops : List Op) :
    emitted st (op :: ops) =
      (match op with
       | .chunk d => if st.readerDone then [] else d
       | _ => []) ++ emitted (step st op).1 ops := rfl

theorem run_append (st : SessState) (l1 l2 : List Op) :
    run st (l1 ++ l2) = run (run st l1) l2 := by
  simp [run, List.foldl_append]

theorem trace_append (st : SessState) (l1 l2 : List Op) :
    trace st (l1 ++ l2) = trace st l1 ++ trace (run st l1) l2 := by
  induction l1 generalizing st with
  | nil => simp [trace, run]
  | cons op rest ih =>
      rw [List.cons_append, trace_cons, trace_cons, ih, run_cons, List.append_assoc]

theorem step_readerDone_mono (st : SessState) (op : Op)
    (h : st.readerDone = true) : (step st op).1.readerDone = true := by
  cases op with
  | chunk d => simp [step, h]
  | subscribe => simp [step, h]
  | unsubscribe i => simp [step, h]
  | consume i => simp [step, h]
  | eof => simp [step, h]
  | reap => by_cases hr : st.reaped <;> simp [step, h, hr]

theorem run_readerDone_mono (ops : List Op) :
    ∀ st : SessState, st.readerDone = true → (run st ops).readerDone = true := by
  induction ops with
  | nil => intro st h; exact h
  | cons op rest ih =>
      intro st h
      rw [run_cons]
      exact ih _ (step_readerDone_mono st op h)

theorem step_reaped_mono (st : SessState) (op : Op)
    (h : st.reaped = true) : (step st op).1.reaped = true := by
  cases op with
  | chunk d => by_cases hd : st.readerDone <;> simp [step, h, hd]
  | subscribe => simp [step, h]
  | unsubscribe i => simp [step, h]
  | consume i => simp [step, h]
  | eof => by_cases hd : st.readerDone <;> simp [step, h, hd]
  | reap => simp [step, h]

theorem run_reaped_mono (ops : List Op) :
    ∀ st : SessState, st.reaped = true → (run st ops).reaped = true := by
  induction ops with
  | nil => intro st h; exact h
  | cons op rest ih =>
      intro st h
      rw [run_cons]
      exact ih _ (step_reaped_mono st op h)

theorem broadcastEvents_shape (subs : List Chan) (d : List Nat) :
    ∀ (k : Nat) (e : Event), e ∈ broadcastEvents k subs d →
      ∃ i, e = Event.deliver i d ∨ e = Event.dropPayload i d := by
  induction subs with
  | nil => intro k e he; cases he
  | cons c cs ih =>
      intro k e he
      simp only [broadcastEvents] at he
      rcases List.mem_append.mp he with h1 | h1
      · by_cases hm : c.inMap
        · by_cases hq : c.queue.length < subQueueCap
          · simp [hm, hq] at h1
            exact ⟨k, Or.inl h1⟩
          · simp [hm, hq] at h1
            exact ⟨k, Or.inr h1⟩
        · simp [hm] at h1
      · exact ih (k + 1) e h1

theorem closeEvents_shape (subs : List Chan) :
    ∀ (k : Nat) (e : Event), e ∈ closeEvents k subs → ∃ i, e = Event.closeChan i := by
  induction subs with
  | nil => intro k e he; cases he
  | cons c cs ih =>
      intro k e he
      simp only [closeEvents] at he
      rcases List.mem_append.mp he with h1 | h1
      · by_cases hm : c.inMap
        · simp [hm] at h1
          exact ⟨k, h1⟩
        · simp [hm] at h1
      · exact ih (k + 1) e h1

theorem trace_after_readerDone (ops : List Op) :
    ∀ st : SessState, st.readerDone = true →
      ∀ e ∈ trace st ops, e = Event.doneFired := by
  induction ops with
  | nil => intro st _ e he; cases he
  | cons op rest ih =>
      intro st h e he
      rw [trace_cons] at he
      rcases List.mem_append.mp he with h1 | h1
      · cases op with
        | chunk d => simp [step, h] at h1
        | subscribe => simp [step] at h1
        | unsubscribe i => simp [step] at h1
        | consume i => simp [step] at h1
        | eof => simp [step, h] at h1
        | reap =>
            by_cases hr : st.reaped
            · simp [step, hr] at h1
            · simp [step, hr] at h1
              exact h1
      · exact ih _ (step_readerDone_mono st op h) e h1

/-! ## C4: append to the ring happens before broadcast -/

theorem head_block_only_chunk (st : SessState) (op : Op) (i : Nat) (d : List Nat)
    (hmem : Event.deliver i d ∈ (step st op).2 ∨ Event.dropPayload i d ∈ (step st op).2) :
    ∃ d0, st.readerDone = false ∧ op = Op.chunk d0 ∧ d = d0 := by
  cases op with
  | chunk d0 =>
      by_cases hrd : st.readerDone
      · rcases hmem with h | h <;> simp [step, hrd] at h
      · refine ⟨d0, by simp [hrd], rfl, ?_⟩
        rcases hmem with h | h
        · simp only [step, hrd] at h
          simp only [Bool.false_eq_true, if_false] at h
          rcases List.mem_cons.mp h with h' | h'
          · cases h'
          · rcases broadcastEvents_shape st.subs d0 0 _ h' with ⟨i', h'' | h''⟩
            · cases h''; rfl
            · cases h''
        · simp only [step, hrd] at h
          simp only [Bool.false_eq_true, if_false] at h
          rcases List.mem_cons.mp h with h' | h'
          · cases h'
          · rcases broadcastEvents_shape st.subs d0 0 _ h' with ⟨i', h'' | h''⟩
            · cases h''
            · cases h''; rfl
  | subscribe => rcases hmem with h | h <;> simp [step] at h
  | unsubscribe j => rcases hmem with h | h <;> simp [step] at h
  | consume j => rcases hmem with h | h <;> simp [step] at h
  | eof =>
      by_cases hrd : st.readerDone
      · rcases hmem with h | h <;> simp [step, hrd] at h
      · exfalso
        rcases hmem with h | h
        · simp only [step, hrd] at h
          simp only [Bool.false_eq_true, if_false] at h
          rcases closeEvents_shape st.subs 0 _ h with ⟨i', h''⟩
          cases h''
        · simp only [step, hrd] at h
          simp only [Bool.false_eq_true, if_false] at h
          rcases closeEvents_shape st.subs 0 _ h with ⟨i', h''⟩
          cases h''
  | reap =>
      by_cases hr : st.reaped
      · rcases hmem with h | h <;> simp [step, hr] at h
      · rcases hmem with h | h <;> simp [step, hr] at h

theorem offered_after_append (ops : List Op) :
    ∀ (st : SessState) (p i : Nat) (d : List Nat),
      ((trace st ops)[p]? = some (Event.deliver i d) ∨
       (trace st ops)[p]? = some (Event.dropPayload i d)) →
      ∃ q, q < p ∧ (trace st ops)[q]? = some (Event.append d) := by
  induction ops with
  | nil =>
      intro st p i d hp
      rcases hp with h | h <;> simp [trace] at h
  | cons op rest ih =>
      intro st p i d hp
      rw [trace_cons] at hp
      by_cases hlt : p < (step st op).2.length
      · have hget : ((step st op).2 ++ trace (step st op).1 rest)[p]? = (step st op).2[p]? := by
          rw [List.getElem?_append]
          simp [hlt]
        rw [hget] at hp
        have hmem : Event.deliver i d ∈ (step st op).2 ∨
            Event.dropPayload i d ∈ (step st op).2 := by
          rcases hp with h | h
          · exact Or.inl (List.getElem?_mem h)
          · exact Or.inr (List.getElem?_mem h)
        obtain ⟨d0, hrd, hop, hd⟩ := head_block_only_chunk st op i d hmem
        subst hop
        subst hd
        have hev : (step st (Op.chunk d)).2 =
            Event.append d :: broadcastEvents 0 st.subs d := by
          simp [step, hrd]
        have hp0 : p ≠ 0 := by
          intro h0
          subst h0
          rw [hev] at hp
          rcases hp with h | h <;> simp at h
        refine ⟨0, Nat.pos_of_ne_zero hp0, ?_⟩
        rw [trace_cons]
        have h0lt : 0 < (step st (Op.chunk d)).2.length := by
          rw [hev]; simp
        rw [List.getElem?_append]
        simp only [h0lt, if_pos]
        rw [hev]
        simp
      · push_neg at hlt
        rw [List.getElem?_append_right hlt] at hp
        have hp' : ((trace (step st op).1 rest)[p - (step st op).2.length]? =
              some (Event.deliver i d)) ∨
            ((trace (step st op).1 rest)[p - (step st op).2.length]? =
              some (Event.dropPayload i d)) := hp
        obtain ⟨q', hq', hq2⟩ := ih (step st op).1 (p - (step st op).2.length) i d hp'
        refine ⟨(step st op).2.length + q', by omega, ?_⟩
        rw [trace_cons, List.getElem?_append_right (by omega : (step st op).2.length ≤ (step st op).2.length + q')]
        simpa [Nat.add_sub_cancel_left] using hq2

/-- `attachedNoDrop i st ops`: along this run, at every chunk the reader
processes, subscriber `i` is registered and its 256-payload queue has free
space — the claim's "attached subscriber whose queue never fills". -/
def attachedNoDrop (i : Nat) : SessState → List Op → Bool
  | _, [] => true
  | st, op :: rest =>
      (match op with
       | .chunk _ =>
           st.readerDone ||
           (match st.subs[i]? with
            | some c => c.inMap && decide (c.queue.length < subQueueCap)
            | none => false)
       | _ => true) &&
      attachedNoDrop i (step st op).1 rest

theorem attachedNoDrop_cons (i : Nat) (st : SessState) (op : Op) (rest : List Op) :
    attachedNoDrop i st (op :: rest) =
      ((match op with
       | .chunk _ =>
           st.readerDone ||
           (match st.subs[i]? with
            | some c => c.inMap && decide (c.queue.length < subQueueCap)
            | none => false)
       | _ => true) &&
      attachedNoDrop i (step st op).1 rest) := rfl

theorem modifyChan_getElem_self (subs : List Chan) (f : Chan → Chan) :
    ∀ i : Nat, (modifyChan subs i f)[i]? = (subs[i]?).map f := by
  induction subs with
  | nil => intro i; cases i <;> rfl
  | cons c cs ih =>
      intro i
      cases i with
      | zero => simp [modifyChan]
      | succ n =>
          simp only [modifyChan, List.getElem?_cons_succ]
          exact ih n

theorem modifyChan_getElem_ne (subs : List Chan) (f : Chan → Chan) :
    ∀ (i j : Nat), j ≠ i → (modifyChan subs i f)[j]? = subs[j]? := by
  induction subs with
  | nil => intro i j _; cases i <;> rfl
  | cons c cs ih =>
      intro i j hne
      cases i with
      | zero =>
          cases j with
          | zero => exact absurd rfl hne
          | succ m => simp [modifyChan]
      | succ n =>
          cases j with
          | zero => simp [modifyChan]
          | succ m =>
              simp only [modifyChan, List.getElem?_cons_succ]
              exact ih n m (fun h => hne (by rw [h]))

/-- The payload content `received ++ queue` of an attached, never-full
subscriber grows by exactly the bytes the reader emits. -/
theorem attached_receives_all (ops : List Op) :
    ∀ (st : SessState) (i : Nat) (c : Chan),
      st.subs[i]? = some c →
      attachedNoDrop i st ops = true →
      ∃ c', (run st ops).subs[i]? = some c' ∧
        (c'.received ++ c'.queue).flatten =
          (c.received ++ c.queue).flatten ++ emitted st ops := by
  induction ops with
  | nil =>
      intro st i c hc _
      exact ⟨c, hc, by simp [emitted]⟩
  | cons op rest ih =>
      intro st i c hc hnd
      rw [attachedNoDrop_cons] at hnd
      rw [Bool.and_eq_true] at hnd
      obtain ⟨h1, h2⟩ := hnd
      rw [run_cons, emitted_cons]
      cases op with
      | chunk d =>
          by_cases hrd : st.readerDone
          · have hst : (step st (Op.chunk d)).1 = st := by simp [step, hrd]
            rw [hst] at h2 ⊢
            obtain ⟨c', hrun, hflat⟩ := ih st i c hc h2
            exact ⟨c', hrun, by simpa [hrd] using hflat⟩
          · simp only [Bool.not_eq_true] at hrd
            simp only [hrd, Bool.false_or] at h1
            rw [hc] at h1
            rw [Bool.and_eq_true] at h1
            obtain ⟨hm, hq⟩ := h1
            have hq' : c.queue.length < subQueueCap := of_decide_eq_true hq
            have hsubs : (step st (Op.chunk d)).1.subs = Session.broadcast st.subs d := by
              simp [step, hrd]
            have hoffer : offer c d = { c with queue := c.queue ++ [d] } := by
              simp [offer, hm, hq']
            have hc' : (step st (Op.chunk d)).1.subs[i]? = some (offer c d) := by
              rw [hsubs]
              simp only [Session.broadcast]
              rw [List.getElem?_map _ st.subs i, hc]
              rfl
            obtain ⟨c', hrun, hflat⟩ := ih (step st (Op.chunk d)).1 i (offer c d) hc' h2
            refine ⟨c', hrun, ?_⟩
            rw [hflat, hoffer]
            have hfl : (c.received ++ (c.queue ++ [d])).flatten =
                (c.received ++ c.queue).flatten ++ d := by
              simp [List.flatten_append]
            simp only []
            rw [hfl, hrd]
            simp [List.append_assoc]
      | subscribe =>
          have hlt : i < st.subs.length := (List.getElem?_eq_some.mp hc).1
          have hc' : (step st Op.subscribe).1.subs[i]? = some c := by
            have hsubs : (step st Op.subscribe).1.subs = st.subs ++ [freshChan] := rfl
            rw [hsubs, List.getElem?_append]
            simp only [hlt, if_pos]
            exact hc
          obtain ⟨c', hrun, hflat⟩ := ih (step st Op.subscribe).1 i c hc' h2
          exact ⟨c', hrun, by simpa using hflat⟩
      | unsubscribe j =>
          by_cases hji : j = i
          · subst hji
            have hc' : (step st (Op.unsubscribe j)).1.subs[j]? =
                some { c with inMap := false } := by
              have hsubs : (step st (Op.unsubscribe j)).1.subs =
                  modifyChan st.subs j (fun c => { c with inMap := false }) := rfl
              rw [hsubs, modifyChan_getElem_self, hc]
              rfl
            obtain ⟨c', hrun, hflat⟩ := ih (step st (Op.unsubscribe j)).1 j _ hc' h2
            exact ⟨c', hrun, by simpa using hflat⟩
          · have hc' : (step st (Op.unsubscribe j)).1.subs[i]? = some c := by
              have hsubs : (step st (Op.unsubscribe j)).1.subs =
                  modifyChan st.subs j (fun c => { c with inMap := false }) := rfl
              rw [hsubs, modifyChan_getElem_ne st.subs _ j i (fun h => hji (by rw [h]))]
              exact hc
            obtain ⟨c', hrun, hflat⟩ := ih (step st (Op.unsubscribe j)).1 i c hc' h2
            exact ⟨c', hrun, by simpa using hflat⟩
      | consume j =>
          by_cases hji : j = i
          · subst hji
            have hsubs : (step st (Op.consume j)).1.subs =
                modifyChan st.subs j (fun c =>
                  match c.queue with
                  | [] => c
                  | p :: rest' => { c with queue := rest', received := c.received ++ [p] }) := rfl
            cases hqe : c.queue with
            | nil =>
                have hc' : (step st (Op.consume j)).1.subs[j]? = some c := by
                  rw [hsubs, modifyChan_getElem_self, hc]
                  simp [hqe]
                obtain ⟨c', hrun, hflat⟩ := ih (step st (Op.consume j)).1 j c hc' h2
                rw [hqe] at hflat
                exact ⟨c', hrun, by simpa using hflat⟩
            | cons p t =>
                have hc' : (step st (Op.consume j)).1.subs[j]? =
                    some { c with queue := t, received := c.received ++ [p] } := by
                  rw [hsubs, modifyChan_getElem_self, hc]
                  simp [hqe]
                obtain ⟨c', hrun, hflat⟩ := ih (step st (Op.consume j)).1 j _ hc' h2
                refine ⟨c', hrun, ?_⟩
                rw [hflat]
                simp [hqe, List.flatten_append, List.append_assoc]
          · have hc' : (step st (Op.consume j)).1.subs[i]? = some c := by
              have hsubs : (step st (Op.consume j)).1.subs =
                  modifyChan st.subs j _ := rfl
              rw [hsubs, modifyChan_getElem_ne st.subs _ j i (fun h => hji (by rw [h]))]
              exact hc
            obtain ⟨c', hrun, hflat⟩ := ih (step st (Op.consume j)).1 i c hc' h2
            exact ⟨c', hrun, by simpa using hflat⟩
      | eof =>
          by_cases hrd : st.readerDone
          · have hst : (step st Op.eof).1 = st := by simp [step, hrd]
            rw [hst] at h2 ⊢
            obtain ⟨c', hrun, hflat⟩ := ih st i c hc h2
            exact ⟨c', hrun, by simpa using hflat⟩
          · have hsubs : (step st Op.eof).1.subs =
                st.subs.map (fun c =>
                  if c.inMap then { c with closed := true, inMap := false } else c) := by
              simp [step, hrd]
            have hc' : (step st Op.eof).1.subs[i]? =
                some (if c.inMap then { c with closed := true, inMap := false } else c) := by
              rw [hsubs]
              rw [List.getElem?_map _ st.subs i, hc]
              rfl
            obtain ⟨c', hrun, hflat⟩ := ih (step st Op.eof).1 i _ hc' h2
            refine ⟨c', hrun, ?_⟩
            rw [hflat]
            by_cases hm : c.inMap <;> simp [hm]
      | reap =>
          by_cases hr : st.reaped
          · have hst : (step st Op.reap).1 = st := by simp [step, hr]
            rw [hst] at h2 ⊢
            obtain ⟨c', hrun, hflat⟩ := ih st i c hc h2
            exact ⟨c', hrun, by simpa using hflat⟩
          · have hc' : (step st Op.reap).1.subs[i]? = some c := by
              have hsubs : (step st Op.reap).1.subs = st.subs := by simp [step, hr]
              rw [hsubs]
              exact hc
            obtain ⟨c', hrun, hflat⟩ := ih (step st Op.reap).1 i c hc' h2
            exact ⟨c', hrun, by simpa using hflat⟩

/-- C4: in every run of the reader, any payload offered to a subscriber
channel (delivered or dropped) is strictly preceded in the event trace by the
`append` of those bytes to the replay ring; consequently a subscriber
attached before any bytes were read, whose queue never fills, holds exactly
the emitted byte stream B — in particular what it has already consumed is a
prefix of B. -/
theorem append_before_broadcast (ops : List Op) :
    (∀ (st : SessState) (p i : Nat) (d : List Nat),
      ((trace st ops)[p]? = some (Event.deliver i d) ∨
       (trace st ops)[p]? = some (Event.dropPayload i d)) →
      ∃ q, q < p ∧ (trace st ops)[q]? = some (Event.append d)) ∧
    (attachedNoDrop 0 (run initSess [Op.subscribe]) ops = true →
      ∃ c, (run (run initSess [Op.subscribe]) ops).subs[0]? = some c ∧
        (c.received ++ c.queue).flatten = emitted (run initSess [Op.subscribe]) ops ∧
        c.received.flatten <+: emitted (run initSess [Op.subscribe]) ops) := by
  constructor
  · exact offered_after_append ops
  · intro h
    have hc0 : (run initSess [Op.subscribe]).subs[0]? = some freshChan := rfl
    obtain ⟨c, h1, h2⟩ :=
      attached_receives_all ops (run initSess [Op.subscribe]) 0 freshChan hc0 h
    have h2' : (c.received ++ c.queue).flatten =
        emitted (run initSess [Op.subscribe]) ops := by simpa using h2
    refine ⟨c, h1, h2', ⟨c.queue.flatten, ?_⟩⟩
    rw [← h2']
    simp [List.flatten_append]

/-- Witness for `append_before_broadcast`: two chunks delivered to a
subscriber attached before the first byte. -/
theorem append_before_broadcast_witness :
    (∃ q, q < 3 ∧
      (trace (run initSess [Op.subscribe]) [Op.chunk [7], Op.chunk [8]])[q]? =
        some (Event.append [8])) ∧
    (∃ c, (run (run initSess [Op.subscribe]) [Op.chunk [7], Op.chunk [8]]).subs[0]? =
        some c ∧
      (c.received ++ c.queue).flatten =
        emitted (run initSess [Op.subscribe]) [Op.chunk [7], Op.chunk [8]] ∧
      c.received.flatten <+:
        emitted (run initSess [Op.subscribe]) [Op.chunk [7], Op.chunk [8]]) := by
  have h := append_before_broadcast [Op.chunk [7], Op.chunk [8]]
  exact ⟨h.1 (run initSess [Op.subscribe]) 3 0 [8] (Or.inl (by decide)),
    h.2 (by decide)⟩

/-! ## C8: Subscribe after the session has ended -/

/-- After the reader goroutine has exited, a channel with an empty queue is
never closed, never receives a payload, and its received list never grows:
no code path touches it again apart from flag changes. -/
theorem open_chan_stays_open (ops : List Op) :
    ∀ (st : SessState) (i : Nat) (c : Chan),
      st.readerDone = true →
      st.subs[i]? = some c →
      c.queue = [] →
      ∃ c', (run st ops).subs[i]? = some c' ∧
        c'.closed = c.closed ∧ c'.queue = [] ∧ c'.received = c.received := by
  induction ops with
  | nil => intro st i c _ hc hq; exact ⟨c, hc, rfl, hq, rfl⟩
  | cons op rest ih =>
      intro st i c hrd hc hq
      rw [run_cons]
      have hrd' : (step st op).1.readerDone = true := step_readerDone_mono st op hrd
      cases op with
      | chunk d =>
          have hst : (step st (Op.chunk d)).1 = st := by simp [step, hrd]
          rw [hst]
          exact ih st i c hrd hc hq
      | subscribe =>
          have hlt : i < st.subs.length := (List.getElem?_eq_some.mp hc).1
          have hc' : (step st Op.subscribe).1.subs[i]? = some c := by
            have hsubs : (step st Op.subscribe).1.subs = st.subs ++ [freshChan] := rfl
            rw [hsubs, List.getElem?_append]
            simp only [hlt, if_pos]
            exact hc
          exact ih _ i c hrd' hc' hq
      | unsubscribe j =>
          by_cases hji : j = i
          · subst hji
            have hc' : (step st (Op.unsubscribe j)).1.subs[j]? =
                some { c with inMap := false } := by
              have hsubs : (step st (Op.unsubscribe j)).1.subs =
                  modifyChan st.subs j (fun c => { c with inMap := false }) := rfl
              rw [hsubs, modifyChan_getElem_self, hc]
              rfl
            obtain ⟨c', h1, h2, h3, h4⟩ := ih _ j _ hrd' hc' hq
            exact ⟨c', h1, h2, h3, h4⟩
          · have hc' : (step st (Op.unsubscribe j)).1.subs[i]? = some c := by
              have hsubs : (step st (Op.unsubscribe j)).1.subs =
                  modifyChan st.subs j (fun c => { c with inMap := false }) := rfl
              rw [hsubs, modifyChan_getElem_ne st.subs _ j i (fun h => hji (by rw [h]))]
              exact hc
            exact ih _ i c hrd' hc' hq
      | consume j =>
          by_cases hji : j = i
          · subst hji
            have hc' : (step st (Op.consume j)).1.subs[j]? = some c := by
              have hsubs : (step st (Op.consume j)).1.subs =
                  modifyChan st.subs j (fun c =>
                    match c.queue with
                    | [] => c
                    | p :: rest' =>
                        { c with queue := rest', received := c.received ++ [p] }) := rfl
              rw [hsubs, modifyChan_getElem_self, hc]
              simp [hq]
            exact ih _ j c hrd' hc' hq
          · have hc' : (step st (Op.consume j)).1.subs[i]? = some c := by
              have hsubs : (step st (Op.consume j)).1.subs =
                  modifyChan st.subs j _ := rfl
              rw [hsubs, modifyChan_getElem_ne st.subs _ j i (fun h => hji (by rw [h]))]
              exact hc
            exact ih _ i c hrd' hc' hq
      | eof =>
          have hst : (step st Op.eof).1 = st := by simp [step, hrd]
          rw [hst]
          exact ih st i c hrd hc hq
      | reap =>
          by_cases hr : st.reaped
          · have hst : (step st Op.reap).1 = st := by simp [step, hr]
            rw [hst]
            exact ih st i c hrd hc hq
          · have hc' : (step st Op.reap).1.subs[i]? = some c := by
              have hsubs : (step st Op.reap).1.subs = st.subs := by simp [step, hr]
              rw [hsubs]
              exact hc
            exact ih _ i c hrd' hc' hq

/-- C8 counterexample: after the reader has terminated (`eof`) and Done has
fired (`reap`), a new `Subscribe` returns `freshChan` — an **open** channel
(`closed = false`), not the already-closed channel the claim requires. -/
theorem subscribe_after_end_cex :
    (run initSess [Op.subscribe, Op.chunk [1], Op.eof, Op.reap]).readerDone = true ∧
    (run initSess [Op.subscribe, Op.chunk [1], Op.eof, Op.reap]).reaped = true ∧
    (run initSess [Op.subscribe, Op.chunk [1], Op.eof, Op.reap, Op.subscribe]).subs[1]? =
      some freshChan ∧
    freshChan.closed = false := by
  decide

/-- C8 amended: a `Subscribe` issued after the reader has terminated (and
regardless of Done) returns a fresh **open** channel that is registered in
the subscriber map but never receives a payload and is never closed by the
session — not an already-closed channel. -/
theorem subscribe_after_end_open (st : SessState) (ops : List Op)
    (h : st.readerDone = true) :
    ∃ c', (run st (Op.subscribe :: ops)).subs[st.subs.length]? = some c' ∧
      c'.closed = false ∧ c'.queue = [] ∧ c'.received = [] := by
  have hsub : (step st Op.subscribe).1.subs[st.subs.length]? = some freshChan := by
    have hsubs : (step st Op.subscribe).1.subs = st.subs ++ [freshChan] := rfl
    rw [hsubs]
    exact List.getElem?_concat_length st.subs freshChan
  have hrd : (step st Op.subscribe).1.readerDone = true := by
    simpa [step] using h
  obtain ⟨c', h1, h2, h3, h4⟩ :=
    open_chan_stays_open ops (step st Op.subscribe).1 st.subs.length freshChan hrd hsub rfl
  rw [run_cons]
  exact ⟨c', h1, h2, h3, h4⟩

/-- Witness for `subscribe_after_end_open`: subscribing right after teardown
and reap; the new channel stays open and empty through further activity. -/
theorem subscribe_after_end_open_witness :
    (run initSess [Op.chunk [1], Op.eof, Op.reap]).readerDone = true ∧
    (∃ c', (run (run initSess [Op.chunk [1], Op.eof, Op.reap])
        (Op.subscribe :: [Op.chunk [2], Op.consume 0])).subs[0]? = some c' ∧
      c'.closed = false ∧ c'.queue = [] ∧ c'.received = []) := by
  refine ⟨by decide, ?_⟩
  have h := subscribe_after_end_open (run initSess [Op.chunk [1], Op.eof, Op.reap])
    [Op.chunk [2], Op.consume 0] (by decide)
  simpa using h

/-! ## C9: teardown closes once, Done fires once, broadcasts stop -/

theorem broadcastEvents_no_done (subs : List Chan) (d : List Nat) :
    ∀ k : Nat, Event.doneFired ∉ broadcastEvents k subs d := by
  intro k hmem
  rcases broadcastEvents_shape subs d k _ hmem with ⟨i, h | h⟩ <;> cases h

theorem closeEvents_no_done (subs : List Chan) :
    ∀ k : Nat, Event.doneFired ∉ closeEvents k subs := by
  intro k hmem
  rcases closeEvents_shape subs k _ hmem with ⟨i, h⟩
  cases h

theorem closeEvents_count (j : Nat) (subs : List Chan) :
    ∀ k : Nat, (closeEvents k subs).count (Event.closeChan j) =
      if k ≤ j then
        (match subs[j - k]? with
         | some c => if c.inMap then 1 else 0
         | none => 0)
      else 0 := by
  induction subs with
  | nil =>
      intro k
      by_cases h : k ≤ j <;> simp [closeEvents, h]
  | cons c cs ih =>
      intro k
      simp only [closeEvents]
      rw [List.count_append, ih (k + 1)]
      rcases Nat.lt_trichotomy k j with hlt | heq | hgt
      · have h1 : (if c.inMap then [Event.closeChan k] else []).count
            (Event.closeChan j) = 0 := by
          by_cases hm : c.inMap <;> simp [hm, List.count_cons, Nat.ne_of_lt hlt]
        have hk1 : k + 1 ≤ j := hlt
        have hidx : j - k = (j - (k + 1)) + 1 := by omega
        rw [h1, hidx]
        simp only [List.getElem?_cons_succ]
        simp [hk1, Nat.le_of_lt hlt]
      · subst heq
        have h1 : (if c.inMap then [Event.closeChan k] else []).count
            (Event.closeChan k) = if c.inMap then 1 else 0 := by
          by_cases hm : c.inMap <;> simp [hm, List.count_cons]
        have hk1 : ¬ (k + 1 ≤ k) := by omega
        rw [h1]
        simp [hk1, Nat.sub_self]
      · have h1 : (if c.inMap then [Event.closeChan k] else []).count
            (Event.closeChan j) = 0 := by
          by_cases hm : c.inMap <;> simp [hm, List.count_cons, (Nat.ne_of_lt hgt).symm]
        have hk1 : ¬ (k + 1 ≤ j) := by omega
        have hk : ¬ (k ≤ j) := by omega
        rw [h1]
        simp [hk1, hk]

theorem trace_no_close_while_running (ops : List Op) :
    ∀ st : SessState, (run st ops).readerDone = false →
      ∀ j : Nat, Event.closeChan j ∉ trace st ops := by
  induction ops with
  | nil => intro st _ j hmem; cases hmem
  | cons op rest ih =>
      intro st hrun j hmem
      rw [trace_cons] at hmem
      rw [run_cons] at hrun
      rcases List.mem_append.mp hmem with h1 | h1
      · cases op with
        | chunk d =>
            by_cases hrd : st.readerDone
            · simp [step, hrd] at h1
            · simp only [step, hrd] at h1
              simp only [Bool.false_eq_true, if_false] at h1
              rcases List.mem_cons.mp h1 with h' | h'
              · cases h'
              · rcases broadcastEvents_shape st.subs d 0 _ h' with ⟨i', h'' | h''⟩ <;> cases h''
        | subscribe => simp [step] at h1
        | unsubscribe i => simp [step] at h1
        | consume i => simp [step] at h1
        | eof =>
            by_cases hrd : st.readerDone
            · simp [step, hrd] at h1
            · exfalso
              have hst' : (step st Op.eof).1.readerDone = true := by simp [step, hrd]
              have := run_readerDone_mono rest _ hst'
              rw [hrun] at this
              cases this
        | reap =>
            by_cases hr : st.reaped
            · simp [step, hr] at h1
            · simp [step, hr] at h1
      · exact ih _ hrun j h1

theorem trace_doneFired_count (ops : List Op) :
    ∀ st : SessState,
      (trace st ops).count Event.doneFired =
        if st.reaped then 0 else if (run st ops).reaped then 1 else 0 := by
  induction ops with
  | nil =>
      intro st
      by_cases hr : st.reaped <;> simp [trace, run, hr]
  | cons op rest ih =>
      intro st
      rw [trace_cons, List.count_append, ih (step st op).1, run_cons]
      cases op with
      | chunk d =>
          by_cases hrd : st.readerDone
          · simp [step, hrd]
          · have h0 : (Event.append d :: broadcastEvents 0 st.subs d).count
                Event.doneFired = 0 := by
              rw [List.count_cons]
              simp [List.count_eq_zero.mpr (broadcastEvents_no_done st.subs d 0)]
            simp [step, hrd, h0]
      | subscribe => simp [step]
      | unsubscribe i => simp [step]
      | consume i => simp [step]
      | eof =>
          by_cases hrd : st.readerDone
          · simp [step, hrd]
          · have h0 : (closeEvents 0 st.subs).count Event.doneFired = 0 :=
              List.count_eq_zero.mpr (closeEvents_no_done st.subs 0)
            simp [step, hrd, h0]
      | reap =>
          by_cases hr : st.reaped
          · simp [step, hr]
          · have hmono2 : (run { st with reaped := true, stopped := true } rest).reaped = true := by
              have hst2 : (step st Op.reap).1.reaped = true := by simp [step, hr]
              simpa [step, hr] using run_reaped_mono rest _ hst2
            simp [step, hr, hmono2, List.count_cons]

/-- C9: for a run in which the reader sees EOF/error after `pre` (while still
running) and then arbitrary activity `post` follows: (i) every payload
offered to any subscriber strictly precedes every channel close in the event
trace (once the teardown runs, nothing is broadcast any more); (ii) every
subscriber channel registered at the EOF moment is closed exactly once, and
no channel is ever closed twice; (iii) Done fires exactly once when the
child is reaped, and never more than once. -/
theorem session_end_semantics (pre post : List Op)
    (h : (run initSess pre).readerDone = false) :
    (∀ (p q i j : Nat) (d : List Nat),
      (trace initSess (pre ++ Op.eof :: post))[p]? = some (Event.closeChan j) →
      ((trace initSess (pre ++ Op.eof :: post))[q]? = some (Event.deliver i d) ∨
       (trace initSess (pre ++ Op.eof :: post))[q]? = some (Event.dropPayload i d)) →
      q < p) ∧
    (∀ (j : Nat) (c : Chan),
      (run initSess pre).subs[j]? = some c → c.inMap = true →
      (trace initSess (pre ++ Op.eof :: post)).count (Event.closeChan j) = 1) ∧
    (∀ j : Nat,
      (trace initSess (pre ++ Op.eof :: post)).count (Event.closeChan j) ≤ 1) ∧
    ((run initSess (pre ++ Op.eof :: post)).reaped = true →
      (trace initSess (pre ++ Op.eof :: post)).count Event.doneFired = 1) ∧
    ((trace initSess (pre ++ Op.eof :: post)).count Event.doneFired ≤ 1) := by
  have hsplit : trace initSess (pre ++ Op.eof :: post) =
      trace initSess pre ++
        ((step (run initSess pre) Op.eof).2 ++
          trace (step (run initSess pre) Op.eof).1 post) := by
    rw [trace_append, trace_cons]
  have hrdf : (run initSess pre).readerDone = false := h
  have hev : (step (run initSess pre) Op.eof).2 =
      closeEvents 0 (run initSess pre).subs := by
    simp [step, hrdf]
  have hst' : (step (run initSess pre) Op.eof).1.readerDone = true := by
    simp [step, hrdf]
  have hnoclose_pre : ∀ j : Nat, Event.closeChan j ∉ trace initSess pre :=
    trace_no_close_while_running pre initSess hrdf
  have hpost_done : ∀ e ∈ trace (step (run initSess pre) Op.eof).1 post,
      e = Event.doneFired := trace_after_readerDone post _ hst'
  have hnoclose_post : ∀ j : Nat,
      Event.closeChan j ∉ trace (step (run initSess pre) Op.eof).1 post := by
    intro j hmem
    cases hpost_done _ hmem
  have hnooffer_post : ∀ (i : Nat) (d : List Nat),
      Event.deliver i d ∉ trace (step (run initSess pre) Op.eof).1 post ∧
      Event.dropPayload i d ∉ trace (step (run initSess pre) Op.eof).1 post := by
    intro i d
    constructor <;> intro hmem <;> cases hpost_done _ hmem
  refine ⟨?_, ?_, ?_, ?_, ?_⟩
  · -- (i) offers precede closes
    intro p q i j d hp hq
    rw [hsplit] at hp hq
    have hplen : (trace initSess pre).length ≤ p := by
      by_contra hc
      push_neg at hc
      rw [List.getElem?_append] at hp
      simp only [hc, if_pos] at hp
      exact hnoclose_pre j (List.getElem?_mem hp)
    have hqlen : q < (trace initSess pre).length := by
      by_contra hc
      push_neg at hc
      rw [List.getElem?_append_right hc] at hq
      rcases hq with h' | h'
      · have hmem := List.getElem?_mem h'
        rcases List.mem_append.mp hmem with h'' | h''
        · rw [hev] at h''
          rcases closeEvents_shape _ 0 _ h'' with ⟨i', he⟩
          cases he
        · exact (hnooffer_post i d).1 h''
      · have hmem := List.getElem?_mem h'
        rcases List.mem_append.mp hmem with h'' | h''
        · rw [hev] at h''
          rcases closeEvents_shape _ 0 _ h'' with ⟨i', he⟩
          cases he
        · exact (hnooffer_post i d).2 h''
    omega
  · -- (ii) registered channels are closed exactly once
    intro j c hc hm
    rw [hsplit, List.count_append, List.count_append]
    rw [List.count_eq_zero.mpr (hnoclose_pre j),
      List.count_eq_zero.mpr (hnoclose_post j), hev, closeEvents_count j _ 0]
    simp [hc, hm]
  · -- (ii') never closed twice
    intro j
    rw [hsplit, List.count_append, List.count_append]
    rw [List.count_eq_zero.mpr (hnoclose_pre j),
      List.count_eq_zero.mpr (hnoclose_post j), hev, closeEvents_count j _ 0]
    rcases hg : (run initSess pre).subs[j - 0]? with _ | c
    · simp [hg]
    · by_cases hm : c.inMap <;> simp [hg, hm]
  · -- (iii) Done fires exactly once on reap
    intro hreap
    rw [trace_doneFired_count]
    have h0 : initSess.reaped = false := rfl
    rw [h0, hreap]
    simp
  · rw [trace_doneFired_count]
    have h0 : initSess.reaped = false := rfl
    rw [h0]
    simp only [Bool.false_eq_true, if_false]
    split <;> simp

/-- Witness for `session_end_semantics`: one subscriber, one chunk, EOF,
then reap — the channel registered at EOF is closed exactly once, Done fires
exactly once, and the delivery precedes the close in the trace. -/
theorem session_end_semantics_witness :
    (trace initSess ([Op.subscribe, Op.chunk [1]] ++ Op.eof :: [Op.reap])).count
      (Event.closeChan 0) = 1 ∧
    (trace initSess ([Op.subscribe, Op.chunk [1]] ++ Op.eof :: [Op.reap])).count
      Event.doneFired = 1 ∧
    (1 : Nat) < 2 := by
  have h := session_end_semantics [Op.subscribe, Op.chunk [1]] [Op.reap] (by decide)
  refine ⟨?_, h.2.2.2.1 (by decide), ?_⟩
  · exact h.2.1 0 ⟨[[1]], [], false, true⟩ (by decide) (by decide)
  · exact h.1 2 1 0 0 [1] (by decide) (Or.inl (by decide))

end Superposition
